import Mathlib

/-!
Verification development for the etcd-backup repository.

Shallow embedding of the two core components:
 * `pkg/decrypt/aescbc.go` — the AES-CBC envelope decryptor (`Decrypt`,
   `removePKCS7Padding`) together with the repository's own test-side
   encryption helper `encryptTestData`.
 * `pkg/etcdreader/reader.go` — the snapshot reader (`Get`, `ListSecrets`,
   `Close`, `bytesToRev`, `isTombstone`).

Bytes are modelled as `Nat` (a Go `byte` is always `< 256`; the theorems
either do not depend on that bound or state it explicitly).  Byte slices are
`List Nat`.  The AES block cipher itself lives in Go's standard library, not
in this repository, so it is abstracted as a pair of functions on 16-byte
blocks; theorems that need it hypothesise the block-cipher contract
(length preservation and decryption inverting encryption).
-/

/-- ASCII bytes of the fixed envelope header literal `"k8s:enc:aescbc:v1:"`
from `aescbc.go` line 39. -/
def envHeader : List Nat :=
  [107, 56, 115, 58, 101, 110, 99, 58, 97, 101, 115, 99, 98, 99, 58, 118, 49, 58]

/-- Go's `bytes.HasPrefix p l` on byte slices: `l` begins with `p`. -/
def bytesHasPre (p l : List Nat) : Bool :=
  l.take p.length == p

/-- Pointwise XOR of two byte strings (Go's CBC block chaining primitive);
like `subtle.XORBytes` restricted to equal-length inputs, the result is
truncated to the shorter operand. -/
def xorBytes (a b : List Nat) : List Nat :=
  List.zipWith Nat.xor a b

/-- Error cases of `removePKCS7Padding` (`aescbc.go` lines 95-117), one
constructor per distinct `fmt.Errorf` site. -/
inductive PadErr where
  | emptyData : PadErr
  | invalidLen (n : Nat) : PadErr
  | exceedsLen : PadErr
  | invalidAt (i : Nat) : PadErr
deriving DecidableEq, Repr

/-- Model of `removePKCS7Padding` from `aescbc.go` lines 95-117: read the last byte as
the padding length, validate it, check the final `paddingLen` bytes all carry
that value, and drop them. -/
def removePKCS7Padding (data : List Nat) (blockSize : Nat) : Except PadErr (List Nat) :=
  if data.length = 0 then
    .error .emptyData
  else if data.getLastD 0 = 0 ∨ data.getLastD 0 > blockSize then
    .error (.invalidLen (data.getLastD 0))
  else if data.getLastD 0 > data.length then
    .error .exceedsLen
  else
    match (data.drop (data.length - data.getLastD 0)).findIdx?
        (fun b => b != data.getLastD 0) with
    | some j => .error (.invalidAt (data.length - data.getLastD 0 + j))
    | none => .ok (data.take (data.length - data.getLastD 0))

/-- Error taxonomy of `Decrypt` (`aescbc.go` lines 37-92), one constructor per
distinct failure site; padding failures are wrapped into one case, as the Go
code wraps the inner error. -/
inductive DecErr where
  | noEnvelope : DecErr
  | malformedEnvelope : DecErr
  | keyIdMismatch : DecErr
  | ciphertextTooShort : DecErr
  | ciphertextMisaligned : DecErr
  | paddingInvalid : DecErr
deriving DecidableEq, Repr

/-- One step of `cipher.NewCBCDecrypter(...).CryptBlocks` (called from
`aescbc.go` line 83) with the underlying 16-byte block decryption abstracted
as `D`: the fuel argument is the number of 16-byte blocks, and each plaintext
block is `D(cᵢ) ⊕ cᵢ₋₁` with `c₀` the IV. -/
def cbcDecBlocks (D : List Nat → List Nat) : Nat → List Nat → List Nat → List Nat
  | 0, _, _ => []
  | n + 1, prev, ct =>
      xorBytes (D (ct.take 16)) prev ++ cbcDecBlocks D n (ct.take 16) (ct.drop 16)

/-- CBC decryption of a ciphertext whose length is a multiple of 16, seeded
with `iv`, block decryption abstracted as `D`. -/
def cbcDecrypt (D : List Nat → List Nat) (iv ct : List Nat) : List Nat :=
  cbcDecBlocks D (ct.length / 16) iv ct

/-- Model of `Decrypt` from `aescbc.go` lines 37-92.  `D` abstracts the AES block
decryption under the constructed 32-byte key; `dKeyName` is the key
identifier the decryptor was constructed with (`""` is modelled as `[]`).
Steps, exactly as in the source: envelope-prefix check with the
plaintext-passthrough fallback, `SplitN` on the first `':'`, key-identifier
check, ciphertext length checks, IV/ciphertext split, CBC decryption and
PKCS#7 unpadding. -/
def Decrypt (D : List Nat → List Nat) (dKeyName : List Nat) (data : List Nat) :
    Except DecErr (List Nat) :=
  if ¬ bytesHasPre envHeader data then
    if bytesHasPre [123] data then .ok data
    else .error .noEnvelope
  else
    let rest := data.drop envHeader.length
    match rest.findIdx? (fun b => b == 58) with
    | none => .error .malformedEnvelope
    | some i =>
      let keyName := rest.take i
      let payload := rest.drop (i + 1)
      if dKeyName ≠ [] ∧ keyName ≠ dKeyName then .error .keyIdMismatch
      else if payload.length < 16 then .error .ciphertextTooShort
      else if payload.length % 16 ≠ 0 then .error .ciphertextMisaligned
      else
        match removePKCS7Padding (cbcDecrypt D (payload.take 16) (payload.drop 16)) 16 with
        | .error _ => .error .paddingInvalid
        | .ok decrypted => .ok decrypted

/-- PKCS#7 padding as performed by the repository's test helper
`encryptTestData` (`aescbc_test.go`): append `16 - len % 16` copies of that
same value. -/
def pkcs7Pad (p : List Nat) : List Nat :=
  p ++ List.replicate (16 - p.length % 16) (16 - p.length % 16)

/-- One step of `cipher.NewCBCEncrypter(...).CryptBlocks` with the 16-byte
block encryption abstracted as `E`: each ciphertext block is
`E(pᵢ ⊕ cᵢ₋₁)` with `c₀` the IV. -/
def cbcEncBlocks (E : List Nat → List Nat) : Nat → List Nat → List Nat → List Nat
  | 0, _, _ => []
  | n + 1, prev, pt =>
      let c := E (xorBytes (pt.take 16) prev)
      c ++ cbcEncBlocks E n c (pt.drop 16)

/-- Model of `encryptTestData` from the repository's `aescbc_test.go`: PKCS#7-pad the
plaintext, CBC-encrypt it seeded with `iv`, and return `iv ++ ciphertext`.
The Go helper draws `iv` at random; here it is a parameter. -/
def encryptTestData (E : List Nat → List Nat) (iv p : List Nat) : List Nat :=
  iv ++ cbcEncBlocks E ((pkcs7Pad p).length / 16) iv (pkcs7Pad p)

/-- ASCII bytes of the key identifier `"key1"` used by the round-trip test. -/
def key1Bytes : List Nat := [107, 101, 121, 49]

/-- The full envelope built by the test (`aescbc_test.go`):
`"k8s:enc:aescbc:v1:" ++ keyId ++ ":" ++ iv ++ ciphertext`. -/
def mkEnvelope (keyId payload : List Nat) : List Nat :=
  envHeader ++ keyId ++ 58 :: payload

/-! ## Snapshot reader (`pkg/etcdreader/reader.go`) -/

/-- The decoded `mvccpb.KeyValue` unit: the logical key (Go compares it as a
string) and the value bytes.  Only the fields `reader.go` reads are kept. -/
structure MvccKV where
  k : String
  v : List Nat
deriving DecidableEq, Repr

/-- One physical record of the snapshot's key bucket: the physical key bytes
`pk` (the MVCC revision bytes) and the outcome of `kv.Unmarshal` on the value
blob — `none` models a value the protobuf decoder rejects (such records are
skipped by every scan). -/
structure PhysRec where
  pk : List Nat
  decoded : Option MvccKV
deriving DecidableEq, Repr

/-- A snapshot's key bucket: its physical records in cursor order (bbolt
iterates keys in ascending byte order; the list order is that scan order). -/
abbrev Snapshot := List PhysRec

/-- Model of `isTombstone` from `reader.go` lines 193-195: a physical key is a
tombstone iff it has the marked length `revBytesLen + 1 = 18`. -/
def isTombstone (b : List Nat) : Bool :=
  b.length == 18

/-- Big-endian `uint64` of the first 8 bytes, as read by
`binary.BigEndian.Uint64`. -/
def beU64 (bs : List Nat) : Nat :=
  (bs.take 8).foldl (fun a b => 256 * a + b) 0

/-- Go's `int64(u)` conversion of a `uint64` value. -/
def toInt64 (n : Nat) : Int :=
  if n % 2 ^ 64 < 2 ^ 63 then ((n % 2 ^ 64 : Nat) : Int)
  else ((n % 2 ^ 64 : Nat) : Int) - 2 ^ 64

/-- An MVCC revision, `reader.go` lines 15-18. -/
structure Revision where
  main : Int
  sub : Int
deriving DecidableEq, Repr

/-- Model of `bytesToRev` from `reader.go` lines 184-189: `main` from bytes 0-7 and
`sub` from bytes 9-16.  A slice shorter than 17 bytes makes the Go code panic
with an out-of-range access (`bytes[0:8]`, `bytes[9:]` or the 8-byte bound
check inside `Uint64`), modelled as `none`. -/
def bytesToRev (bytes : List Nat) : Option Revision :=
  if 17 ≤ bytes.length then
    some { main := toInt64 (beU64 bytes), sub := toInt64 (beU64 ((bytes.drop 9).take 8)) }
  else
    none

/-- The `main` revision a well-formed (≥ 17 byte) physical key decodes to. -/
def mainOf (r : PhysRec) : Int :=
  toInt64 (beU64 r.pk)

/-- Outcome of `Reader.Get`: a runtime panic, the `key not found` error, or
the value found.  (The `key bucket not found` failure is outside this model:
a `Snapshot` is the bucket's record list.) -/
inductive GetResult where
  | panic : GetResult
  | keyNotFound : GetResult
  | found (v : List Nat) : GetResult
deriving DecidableEq, Repr

/-- Does this record decode to a non-tombstone write of logical key `key`?
This is the guard on `reader.go` lines 69-71. -/
def matchLiveB (key : String) (r : PhysRec) : Bool :=
  match r.decoded with
  | some kv => kv.k == key && ! isTombstone r.pk
  | none => false

/-- The cursor loop of `Reader.Get` (`reader.go` lines 61-81), with the
running state `(latestRev, data)` made explicit.  Each record is skipped when
its value does not decode, when its decoded key differs from `key`, or when
its physical key is a tombstone; otherwise the revision is decoded (panicking
on a short physical key) and the record becomes the candidate iff its `main`
strictly exceeds the running maximum. -/
def getLoop (key : String) : Snapshot → Int → List Nat → GetResult
  | [], latestRev, data => if latestRev == -1 then .keyNotFound else .found data
  | r :: rs, latestRev, data =>
    match r.decoded with
    | none => getLoop key rs latestRev data
    | some kv =>
      if kv.k == key then
        if ! isTombstone r.pk then
          match bytesToRev r.pk with
          | none => .panic
          | some rev =>
            if rev.main > latestRev then getLoop key rs rev.main kv.v
            else getLoop key rs latestRev data
        else getLoop key rs latestRev data
      else getLoop key rs latestRev data

/-- Model of `Reader.Get` from `reader.go` lines 48-91: scan all records with
`latestRev` initialised to `-1` and empty candidate data; report
`key not found` when no live candidate was seen. -/
def Get (recs : Snapshot) (key : String) : GetResult :=
  getLoop key recs (-1) []

/-- Go's `strings.HasPrefix key p`, on the character lists of the strings. -/
def strHasPre (key p : String) : Bool :=
  key.data.take p.data.length == p.data

/-- Insertion into the `seenKeys` set (`seenKeys[key] = struct{}{}` on a Go
map): a no-op when already present, else appended. -/
def insertKey (seen : List String) (k : String) : List String :=
  if k ∈ seen then seen else seen ++ [k]

/-- The cursor loop shared by `ListSecrets` (`reader.go` lines 108-129) and
`ListAll`, parametrised by the prefix list: a record whose value decodes and
whose logical key matches some prefix adds the key when live and removes it
when tombstoned; everything else leaves the set unchanged. -/
def listLoop (pfxs : List String) : Snapshot → List String → List String
  | [], seen => seen
  | r :: rs, seen =>
    match r.decoded with
    | none => listLoop pfxs rs seen
    | some kv =>
      if pfxs.any (fun p => strHasPre kv.k p) then
        if ! isTombstone r.pk then listLoop pfxs rs (insertKey seen kv.k)
        else listLoop pfxs rs (seen.filter (fun s => s ≠ kv.k))
      else listLoop pfxs rs seen

/-- The prefix-filtered enumeration with caller-visible prefix list — the body
of `ListSecrets` with `prefixes` as a parameter (the spec's
`ListByPrefixes`). -/
def listByPfxs (pfxs : List String) (recs : Snapshot) : List String :=
  listLoop pfxs recs []

/-- Model of `Reader.ListSecrets` from `reader.go` lines 94-140: the loop instantiated
with the two hard-coded secret path roots. -/
def ListSecrets (recs : Snapshot) : List String :=
  listByPfxs ["/registry/secrets/", "/kubernetes.io/secrets/"] recs

/-! ## Close (`reader.go` lines 40-45) -/

/-- The bbolt handle as far as `Close` observes it.  External collaborator
model: `bolt.DB.Close` marks the handle closed and releases its resources;
on an already-closed handle it returns `nil` without doing anything
(`db.close` returns early when `!db.opened`). -/
structure BoltDB where
  opened : Bool
deriving DecidableEq, Repr

/-- Model of `bolt.DB.Close`, with the outcome of the actual resource release (file
close / munmap) abstracted as the parameter `rel`; a second close is a no-op
returning `nil`. -/
def boltClose (rel : Except Unit Unit) (db : BoltDB) : Except Unit Unit × BoltDB :=
  if db.opened then (rel, { opened := false }) else (.ok (), db)

/-- The `Reader` struct: its (possibly nil) bbolt handle. -/
structure Reader where
  db : Option BoltDB
deriving DecidableEq, Repr

/-- Model of `Reader.Close` from `reader.go` lines 40-45: delegate to `db.Close` when
the handle is non-nil, else return `nil`.  The field is never reset to nil. -/
def readerClose (rel : Except Unit Unit) (r : Reader) : Except Unit Unit × Reader :=
  match r.db with
  | some db =>
    let res := boltClose rel db
    (res.1, { db := some res.2 })
  | none => (.ok (), r)

/-- Does this record decode to a write (live or tombstoned) of logical key
`key`?  Used to describe the set of physical records `ListSecrets` inspects
for one logical key. -/
def decodesToB (key : String) (r : PhysRec) : Bool :=
  match r.decoded with
  | some kv => kv.k == key
  | none => false

/-! ## Theorems -/

/-- C5: padding removal (block size 16) fails exactly when the buffer is
empty, or its last byte is `0`, exceeds `16`, or exceeds the buffer length,
or some of the last `paddingLen` bytes differs from `paddingLen`; on success
exactly the final `paddingLen` bytes are removed.  The concrete conjuncts
are the spec's two examples: five trailing `0x05` bytes strip exactly 5
bytes, and a `0x06` among the last five bytes of a buffer ending in `0x05`
is rejected. -/
theorem removePKCS7Padding_spec :
    (∀ data : List Nat,
      ((removePKCS7Padding data 16).isOk = false ↔
        (data = [] ∨ data.getLastD 0 = 0 ∨ data.getLastD 0 > 16 ∨
          data.getLastD 0 > data.length ∨
          ∃ b ∈ data.drop (data.length - data.getLastD 0), b ≠ data.getLastD 0)) ∧
      (¬ (data = [] ∨ data.getLastD 0 = 0 ∨ data.getLastD 0 > 16 ∨
          data.getLastD 0 > data.length ∨
          ∃ b ∈ data.drop (data.length - data.getLastD 0), b ≠ data.getLastD 0) →
        removePKCS7Padding data 16 = .ok (data.take (data.length - data.getLastD 0))))
    ∧ removePKCS7Padding [9, 9, 9, 9, 9, 9, 9, 9, 9, 9, 9, 5, 5, 5, 5, 5] 16
        = .ok [9, 9, 9, 9, 9, 9, 9, 9, 9, 9, 9]
    ∧ removePKCS7Padding [9, 9, 9, 9, 9, 9, 9, 9, 9, 9, 9, 5, 6, 5, 5, 5] 16
        = .error (.invalidAt 12) := by
  refine ⟨?_, rfl, rfl⟩
  intro data
  by_cases h0 : data = []
  · subst h0
    have hre : removePKCS7Padding [] 16 = .error .emptyData := rfl
    rw [hre]
    exact ⟨⟨fun _ => Or.inl rfl, fun _ => rfl⟩, fun hn => absurd (Or.inl rfl) hn⟩
  · have hlen : ¬ ([] : List Nat).length = 0 → True := fun _ => trivial
    have hlen0 : ¬ data.length = 0 := fun h => h0 (List.length_eq_zero.mp h)
    by_cases h1 : data.getLastD 0 = 0 ∨ data.getLastD 0 > 16
    · have hre : removePKCS7Padding data 16 = .error (.invalidLen (data.getLastD 0)) := by
        unfold removePKCS7Padding
        rw [if_neg hlen0, if_pos h1]
      rw [hre]
      exact ⟨⟨fun _ => by tauto, fun _ => rfl⟩, fun hn => absurd (by tauto) hn⟩
    · by_cases h2 : data.getLastD 0 > data.length
      · have hre : removePKCS7Padding data 16 = .error .exceedsLen := by
          unfold removePKCS7Padding
          rw [if_neg hlen0, if_neg h1, if_pos h2]
        rw [hre]
        exact ⟨⟨fun _ => by tauto, fun _ => rfl⟩, fun hn => absurd (by tauto) hn⟩
      · rcases hfind : (data.drop (data.length - data.getLastD 0)).findIdx?
            (fun b => b != data.getLastD 0) with _ | j
        · have hall := List.findIdx?_eq_none_iff.mp hfind
          have hno : ¬ ∃ b ∈ data.drop (data.length - data.getLastD 0),
              b ≠ data.getLastD 0 := by
            rintro ⟨b, hb, hne⟩
            have hb2 := hall b hb
            rw [bne_eq_false_iff_eq] at hb2
            exact hne hb2
          have hre : removePKCS7Padding data 16
              = .ok (data.take (data.length - data.getLastD 0)) := by
            unfold removePKCS7Padding
            rw [if_neg hlen0, if_neg h1, if_neg h2, hfind]
          rw [hre]
          constructor
          · constructor
            · intro hfalse
              exact absurd hfalse (by simp [Except.isOk, Except.toBool])
            · rintro (h | h | h | h | h)
              · exact absurd h h0
              · exact absurd (Or.inl h) h1
              · exact absurd (Or.inr h) h1
              · exact absurd h h2
              · exact absurd h hno
          · intro _
            rfl
        · have hex : ∃ b ∈ data.drop (data.length - data.getLastD 0),
              b ≠ data.getLastD 0 := by
            by_contra hno
            have hnone : (data.drop (data.length - data.getLastD 0)).findIdx?
                (fun b => b != data.getLastD 0) = none := by
              apply List.findIdx?_eq_none_iff.mpr
              intro x hx
              rw [bne_eq_false_iff_eq]
              by_contra hb
              exact hno ⟨x, hx, hb⟩
            rw [hnone] at hfind
            exact Option.noConfusion hfind
          have hre : removePKCS7Padding data 16
              = .error (.invalidAt (data.length - data.getLastD 0 + j)) := by
            unfold removePKCS7Padding
            rw [if_neg hlen0, if_neg h1, if_neg h2, hfind]
          rw [hre]
          exact ⟨⟨fun _ => by tauto, fun _ => rfl⟩, fun hn => absurd (by tauto) hn⟩

/-- C5 witness: the general characterisation applied at concrete buffers,
one succeeding and one failing. -/
theorem removePKCS7Padding_spec_witness :
    removePKCS7Padding [1, 2, 2] 16 = Except.ok (List.take 1 [1, 2, 2]) ∧
    (removePKCS7Padding [3] 16).isOk = false :=
  ⟨(removePKCS7Padding_spec.1 [1, 2, 2]).2 (by decide),
   (removePKCS7Padding_spec.1 [3]).1.mpr (by decide)⟩

/-- C7: on input that does not carry the fixed envelope header, `Decrypt`
returns the buffer unchanged when it starts with the byte `'{'`, and fails
with the no-envelope error otherwise. -/
theorem decrypt_passthrough_spec (D : List Nat → List Nat) (dk data : List Nat)
    (h : bytesHasPre envHeader data = false) :
    (bytesHasPre [123] data = true → Decrypt D dk data = .ok data) ∧
    (bytesHasPre [123] data = false → Decrypt D dk data = .error .noEnvelope) := by
  constructor
  · intro hb
    simp [Decrypt, h, hb]
  · intro hb
    simp [Decrypt, h, hb]

/-- C7 witness: a JSON-looking buffer passes through unchanged; a
non-envelope, non-JSON buffer is rejected. -/
theorem decrypt_passthrough_spec_witness :
    Decrypt id [] [123, 125] = Except.ok [123, 125] ∧
    Decrypt id [] [0] = Except.error DecErr.noEnvelope :=
  ⟨(decrypt_passthrough_spec id [] [123, 125] (by decide)).1 (by decide),
   (decrypt_passthrough_spec id [] [0] (by decide)).2 (by decide)⟩

/-- C9: closing an already successfully closed reader succeeds again,
whatever the outcome of the underlying resource release would be. -/
theorem readerClose_idempotent (rel rel' : Except Unit Unit) (r : Reader)
    (h : (readerClose rel r).1 = .ok ()) :
    (readerClose rel' (readerClose rel r).2).1 = .ok () := by
  rcases r with ⟨_ | ⟨op⟩⟩
  · simp [readerClose]
  · simp only [readerClose, boltClose]
    split <;> simp

/-- C9 witness: a reader holding an open handle, closed twice. -/
theorem readerClose_idempotent_witness :
    (readerClose (Except.error ())
      ((readerClose (Except.ok ()) ⟨some ⟨true⟩⟩).2)).1 = Except.ok () :=
  readerClose_idempotent (Except.ok ()) (Except.error ()) ⟨some ⟨true⟩⟩ rfl

/-- C10: `Get` is not total — a snapshot holding a record whose physical key
is shorter than 17 bytes (hence not tombstone-marked) and whose value decodes
to the queried logical key makes `Get` panic while decoding the revision. -/
theorem get_short_key_panics :
    ∃ (recs : Snapshot) (key : String),
      (∃ r ∈ recs, r.pk.length < 17 ∧ isTombstone r.pk = false ∧
        ∃ kv, r.decoded = some kv ∧ kv.k = key) ∧
      Get recs key = .panic := by
  refine ⟨[⟨[0], some ⟨"K", [7]⟩⟩], "K", ?_, by decide⟩
  exact ⟨⟨[0], some ⟨"K", [7]⟩⟩, List.mem_singleton.mpr rfl, by decide, by decide,
    ⟨"K", [7]⟩, rfl, rfl⟩

/-- C1 (code bug): a key written live at main revision 1 and tombstoned at
main revision 2 — `Get` skips the tombstone record entirely and returns the
value written at revision 1 instead of failing with the key-not-found
error. -/
theorem get_returns_value_despite_tombstone :
    isTombstone [0, 0, 0, 0, 0, 0, 0, 2, 95, 0, 0, 0, 0, 0, 0, 0, 0, 116] = true ∧
    Get [⟨[0, 0, 0, 0, 0, 0, 0, 1, 95, 0, 0, 0, 0, 0, 0, 0, 0], some ⟨"K", [118, 49]⟩⟩,
         ⟨[0, 0, 0, 0, 0, 0, 0, 2, 95, 0, 0, 0, 0, 0, 0, 0, 0, 116], some ⟨"K", []⟩⟩] "K"
      = .found [118, 49] := by decide

/-- C8 counterexample: two live records for the same logical key carrying the
same `main` revision but different `sub` revisions (distinct MVCC revisions,
as within one transaction).  The two scan orders are permutations of each
other, yet `Get` returns different values. -/
theorem get_scan_order_dependent :
    (Get [⟨[0, 0, 0, 0, 0, 0, 0, 1, 95, 0, 0, 0, 0, 0, 0, 0, 0], some ⟨"K", [1]⟩⟩,
          ⟨[0, 0, 0, 0, 0, 0, 0, 1, 95, 0, 0, 0, 0, 0, 0, 0, 1], some ⟨"K", [2]⟩⟩] "K"
      ≠ Get [⟨[0, 0, 0, 0, 0, 0, 0, 1, 95, 0, 0, 0, 0, 0, 0, 0, 1], some ⟨"K", [2]⟩⟩,
             ⟨[0, 0, 0, 0, 0, 0, 0, 1, 95, 0, 0, 0, 0, 0, 0, 0, 0], some ⟨"K", [1]⟩⟩] "K")
    ∧ bytesToRev [0, 0, 0, 0, 0, 0, 0, 1, 95, 0, 0, 0, 0, 0, 0, 0, 0]
      ≠ bytesToRev [0, 0, 0, 0, 0, 0, 0, 1, 95, 0, 0, 0, 0, 0, 0, 0, 1] := by
  constructor
  · decide
  · decide

/-- Unfolding of the guard on `reader.go` lines 69-71: a record is a live
match iff its value decodes, the decoded key equals the queried key, and the
physical key is not a tombstone. -/
theorem matchLiveB_iff (key : String) (r : PhysRec) :
    matchLiveB key r = true ↔
      ∃ kv, r.decoded = some kv ∧ kv.k = key ∧ isTombstone r.pk = false := by
  rcases hdec : r.decoded with _ | kv
  · simp [matchLiveB, hdec]
  · simp [matchLiveB, hdec, Bool.and_eq_true, beq_iff_eq, Bool.not_eq_true']

/-- A physical key of at least 17 bytes decodes without panicking. -/
theorem bytesToRev_of_len (b : List Nat) (h : 17 ≤ b.length) :
    bytesToRev b = some ⟨toInt64 (beU64 b), toInt64 (beU64 ((b.drop 9).take 8))⟩ := by
  simp [bytesToRev, h]

/-- A nonempty filtered record set has a member of maximal `main` revision. -/
theorem exists_max_main (p : PhysRec → Bool) :
    ∀ (recs : Snapshot) (r0 : PhysRec), r0 ∈ recs → p r0 = true →
      ∃ rm ∈ recs, p rm = true ∧ ∀ r ∈ recs, p r = true → mainOf r ≤ mainOf rm := by
  intro recs
  induction recs with
  | nil => intro r0 h0; cases h0
  | cons a rs ih =>
    intro r0 h0 hp0
    by_cases hex : ∃ r1 ∈ rs, p r1 = true
    · obtain ⟨r1, h1, hp1⟩ := hex
      obtain ⟨rm, hm, hpm, hmax⟩ := ih r1 h1 hp1
      by_cases hpa : p a = true
      · by_cases hle : mainOf a ≤ mainOf rm
        · refine ⟨rm, List.mem_cons_of_mem a hm, hpm, ?_⟩
          intro r hr hpr
          rcases List.mem_cons.mp hr with rfl | hr'
          · exact hle
          · exact hmax r hr' hpr
        · refine ⟨a, List.mem_cons_self a rs, hpa, ?_⟩
          intro r hr hpr
          rcases List.mem_cons.mp hr with rfl | hr'
          · exact le_refl _
          · exact le_trans (hmax r hr' hpr) (by omega)
      · refine ⟨rm, List.mem_cons_of_mem a hm, hpm, ?_⟩
        intro r hr hpr
        rcases List.mem_cons.mp hr with rfl | hr'
        · exact absurd hpr hpa
        · exact hmax r hr' hpr
    · have hra : r0 = a := by
        rcases List.mem_cons.mp h0 with rfl | hr'
        · rfl
        · exact absurd ⟨r0, hr', hp0⟩ hex
      subst hra
      refine ⟨r0, List.mem_cons_self r0 rs, hp0, ?_⟩
      intro r hr hpr
      rcases List.mem_cons.mp hr with rfl | hr'
      · exact le_refl _
      · exact absurd ⟨r, hr', hpr⟩ hex

/-- A live matching record with a short (< 17 byte) physical key anywhere in
the remaining scan makes the `Get` loop panic, whatever the running state. -/
theorem getLoop_panic (key : String) :
    ∀ (rs : Snapshot) (latest : Int) (data : List Nat),
      (∃ r ∈ rs, matchLiveB key r = true ∧ r.pk.length < 17) →
      getLoop key rs latest data = .panic := by
  intro rs
  induction rs with
  | nil =>
    rintro latest data ⟨r, hr, _⟩
    cases hr
  | cons r rs ih =>
    rintro latest data ⟨r', hr', hml, hlen⟩
    rcases List.mem_cons.mp hr' with rfl | hmem
    · obtain ⟨kv, hdec, hk, hts⟩ := (matchLiveB_iff key r').mp hml
      have hb : bytesToRev r'.pk = none := by
        unfold bytesToRev
        rw [if_neg]
        omega
      simp [getLoop, hdec, hk, hts, hb]
    · have hex : ∃ r'' ∈ rs, matchLiveB key r'' = true ∧ r''.pk.length < 17 :=
        ⟨r', hmem, hml, hlen⟩
      rcases hdec : r.decoded with _ | kv
      · simp only [getLoop, hdec]
        exact ih _ _ hex
      · by_cases hk : kv.k = key
        · by_cases hts : isTombstone r.pk = true
          · simp only [getLoop, hdec, hk, beq_self_eq_true, if_true, hts, Bool.not_true]
            simp only [Bool.false_eq_true, if_false]
            exact ih _ _ hex
          · have hts' : isTombstone r.pk = false := by
              simpa using hts
            rcases hrev : bytesToRev r.pk with _ | rev
            · simp [getLoop, hdec, hk, hts', hrev]
            · by_cases hgt : rev.main > latest
              · simp only [getLoop, hdec, hk, beq_self_eq_true, if_true, hts',
                  Bool.not_false, hrev, hgt]
                exact ih _ _ hex
              · simp only [getLoop, hdec, hk, beq_self_eq_true, if_true, hts',
                  Bool.not_false, hrev, if_neg hgt]
                exact ih _ _ hex
        · simp only [getLoop, hdec]
          rw [if_neg (by simpa using hk)]
          exact ih _ _ hex

/-- When every remaining live matching record is well-formed and cannot beat
the running maximum, the `Get` loop finishes with its current state. -/
theorem getLoop_stable (key : String) :
    ∀ (rs : Snapshot) (latest : Int) (data : List Nat),
      (∀ r ∈ rs, matchLiveB key r = true → 17 ≤ r.pk.length ∧ mainOf r ≤ latest) →
      getLoop key rs latest data = if latest == -1 then .keyNotFound else .found data := by
  intro rs
  induction rs with
  | nil =>
    intro latest data _
    simp [getLoop]
  | cons r rs ih =>
    intro latest data h
    have htail : ∀ r' ∈ rs, matchLiveB key r' = true →
        17 ≤ r'.pk.length ∧ mainOf r' ≤ latest :=
      fun r' hr' => h r' (List.mem_cons_of_mem r hr')
    rcases hdec : r.decoded with _ | kv
    · simp only [getLoop, hdec]
      exact ih _ _ htail
    · by_cases hk : kv.k = key
      · by_cases hts : isTombstone r.pk = true
        · simp only [getLoop, hdec, hk, beq_self_eq_true, if_true, hts, Bool.not_true]
          simp only [Bool.false_eq_true, if_false]
          exact ih _ _ htail
        · have hts' : isTombstone r.pk = false := by
            simpa using hts
          have hml : matchLiveB key r = true :=
            (matchLiveB_iff key r).mpr ⟨kv, hdec, hk, hts'⟩
          obtain ⟨hlen, hle⟩ := h r (List.mem_cons_self r rs) hml
          have hrev := bytesToRev_of_len r.pk hlen
          have hle' : toInt64 (beU64 r.pk) ≤ latest := hle
          have hngt : ¬ (toInt64 (beU64 r.pk) > latest) := by omega
          simp only [getLoop, hdec, hk, beq_self_eq_true, if_true, hts', Bool.not_false,
            hrev, if_neg hngt]
          exact ih _ _ htail
      · simp only [getLoop, hdec]
        rw [if_neg (by simpa using hk)]
        exact ih _ _ htail

/-- Core lemma for `Get`: when every live matching record is well-formed and
some live matching record strictly beats the running maximum, is maximal and
has a nonnegative `main`, the loop ends reporting the value of some
maximal-`main` live matching record. -/
theorem getLoop_max (key : String) :
    ∀ (rs : Snapshot) (latest : Int) (data : List Nat) (rm : PhysRec),
      (∀ r ∈ rs, matchLiveB key r = true → 17 ≤ r.pk.length) →
      rm ∈ rs → matchLiveB key rm = true → latest < mainOf rm → 0 ≤ mainOf rm →
      (∀ r ∈ rs, matchLiveB key r = true → mainOf r ≤ mainOf rm) →
      ∃ r' ∈ rs, ∃ kv, r'.decoded = some kv ∧ kv.k = key ∧ isTombstone r'.pk = false ∧
        (∀ r ∈ rs, matchLiveB key r = true → mainOf r ≤ mainOf r') ∧
        getLoop key rs latest data = .found kv.v := by
  intro rs
  induction rs with
  | nil =>
    intro latest data rm _ hm
    cases hm
  | cons r rs ih =>
    intro latest data rm hwf hm hml hlt h0 hmax
    have hwft : ∀ r' ∈ rs, matchLiveB key r' = true → 17 ≤ r'.pk.length :=
      fun r' hr' => hwf r' (List.mem_cons_of_mem r hr')
    have hmaxt : ∀ r' ∈ rs, matchLiveB key r' = true → mainOf r' ≤ mainOf rm :=
      fun r' hr' => hmax r' (List.mem_cons_of_mem r hr')
    rcases hdec : r.decoded with _ | kv
    · have hmlr : matchLiveB key r = false := by
        simp [matchLiveB, hdec]
      have hrm : rm ∈ rs := by
        rcases List.mem_cons.mp hm with rfl | h
        · rw [hmlr] at hml
          cases hml
        · exact h
      obtain ⟨r', hr', kv', h1, h2, h3, hmax', heq⟩ :=
        ih latest data rm hwft hrm hml hlt h0 hmaxt
      refine ⟨r', List.mem_cons_of_mem r hr', kv', h1, h2, h3, ?_, ?_⟩
      · intro r'' hr'' hml''
        rcases List.mem_cons.mp hr'' with rfl | ht
        · rw [hmlr] at hml''
          cases hml''
        · exact hmax' r'' ht hml''
      · simp only [getLoop, hdec]
        exact heq
    · by_cases hk : kv.k = key
      · by_cases hts : isTombstone r.pk = true
        · have hmlr : matchLiveB key r = false := by
            simp [matchLiveB, hdec, hts]
          have hrm : rm ∈ rs := by
            rcases List.mem_cons.mp hm with rfl | h
            · rw [hmlr] at hml
              cases hml
            · exact h
          obtain ⟨r', hr', kv', h1, h2, h3, hmax', heq⟩ :=
            ih latest data rm hwft hrm hml hlt h0 hmaxt
          refine ⟨r', List.mem_cons_of_mem r hr', kv', h1, h2, h3, ?_, ?_⟩
          · intro r'' hr'' hml''
            rcases List.mem_cons.mp hr'' with rfl | ht
            · rw [hmlr] at hml''
              cases hml''
            · exact hmax' r'' ht hml''
          · simp only [getLoop, hdec, hk, beq_self_eq_true, if_true, hts, Bool.not_true]
            simp only [Bool.false_eq_true, if_false]
            exact heq
        · have hts' : isTombstone r.pk = false := by
            simpa using hts
          have hmlr : matchLiveB key r = true :=
            (matchLiveB_iff key r).mpr ⟨kv, hdec, hk, hts'⟩
          have hlen := hwf r (List.mem_cons_self r rs) hmlr
          have hrev := bytesToRev_of_len r.pk hlen
          have hler : mainOf r ≤ mainOf rm := hmax r (List.mem_cons_self r rs) hmlr
          by_cases hgt : toInt64 (beU64 r.pk) > latest
          · by_cases hcase : mainOf rm ≤ mainOf r
            · have hmaxr : ∀ r'' ∈ rs, matchLiveB key r'' = true →
                  17 ≤ r''.pk.length ∧ mainOf r'' ≤ mainOf r :=
                fun r'' h'' hml'' =>
                  ⟨hwft r'' h'' hml'', le_trans (hmaxt r'' h'' hml'') hcase⟩
              have hstable := getLoop_stable key rs (mainOf r) kv.v hmaxr
              have h0r : (0 : Int) ≤ mainOf r := le_trans h0 hcase
              have hne : (mainOf r == (-1 : Int)) = false :=
                beq_eq_false_iff_ne.mpr (by omega)
              rw [hne, if_neg (by simp)] at hstable
              refine ⟨r, List.mem_cons_self r rs, kv, hdec, hk, hts', ?_, ?_⟩
              · intro r'' hr'' hml''
                rcases List.mem_cons.mp hr'' with rfl | ht
                · exact le_refl _
                · exact le_trans (hmaxt r'' ht hml'') hcase
              · simp only [getLoop, hdec, hk, beq_self_eq_true, if_true, hts',
                  Bool.not_false, hrev, if_pos hgt]
                exact hstable
            · have hltr : mainOf r < mainOf rm := by omega
              have hrm : rm ∈ rs := by
                rcases List.mem_cons.mp hm with rfl | h
                · omega
                · exact h
              obtain ⟨r', hr', kv', h1, h2, h3, hmax', heq⟩ :=
                ih (toInt64 (beU64 r.pk)) kv.v rm hwft hrm hml hltr h0 hmaxt
              refine ⟨r', List.mem_cons_of_mem r hr', kv', h1, h2, h3, ?_, ?_⟩
              · intro r'' hr'' hml''
                rcases List.mem_cons.mp hr'' with rfl | ht
                · have hge : mainOf rm ≤ mainOf r' := hmax' rm hrm hml
                  omega
                · exact hmax' r'' ht hml''
              · simp only [getLoop, hdec, hk, beq_self_eq_true, if_true, hts',
                  Bool.not_false, hrev, if_pos hgt]
                exact heq
          · have hler2 : mainOf r ≤ latest := by
              have : ¬ (mainOf r > latest) := hgt
              omega
            have hrm : rm ∈ rs := by
              rcases List.mem_cons.mp hm with rfl | h
              · omega
              · exact h
            obtain ⟨r', hr', kv', h1, h2, h3, hmax', heq⟩ :=
              ih latest data rm hwft hrm hml hlt h0 hmaxt
            refine ⟨r', List.mem_cons_of_mem r hr', kv', h1, h2, h3, ?_, ?_⟩
            · intro r'' hr'' hml''
              rcases List.mem_cons.mp hr'' with rfl | ht
              · have hge : mainOf rm ≤ mainOf r' := hmax' rm hrm hml
                omega
              · exact hmax' r'' ht hml''
            · simp only [getLoop, hdec, hk, beq_self_eq_true, if_true, hts',
                Bool.not_false, hrev, if_neg hgt]
              exact heq
      · have hmlr : matchLiveB key r = false := by
          simp [matchLiveB, hdec, hk]
        have hrm : rm ∈ rs := by
          rcases List.mem_cons.mp hm with rfl | h
          · rw [hmlr] at hml
            cases hml
          · exact h
        obtain ⟨r', hr', kv', h1, h2, h3, hmax', heq⟩ :=
          ih latest data rm hwft hrm hml hlt h0 hmaxt
        refine ⟨r', List.mem_cons_of_mem r hr', kv', h1, h2, h3, ?_, ?_⟩
        · intro r'' hr'' hml''
          rcases List.mem_cons.mp hr'' with rfl | ht
          · rw [hmlr] at hml''
            cases hml''
          · exact hmax' r'' ht hml''
        · simp only [getLoop, hdec]
          rw [if_neg (by simpa using hk)]
          exact heq

/-- C2: with well-formed physical keys for all live matching records, if some
live matching record exists (with nonnegative decoded `main`, as every real
MVCC revision has), `Get` returns the value of a live matching record of
maximal `main` revision; with no live matching record at all, `Get` fails
with the key-not-found error.  The Go code's defensive copy of the value
bytes is value equality in this model. -/
theorem get_latest_live_value (recs : Snapshot) (key : String)
    (hwf : ∀ r ∈ recs, matchLiveB key r = true → 17 ≤ r.pk.length) :
    ((∃ r0 ∈ recs, matchLiveB key r0 = true ∧ 0 ≤ mainOf r0) →
      ∃ r' ∈ recs, ∃ kv, r'.decoded = some kv ∧ kv.k = key ∧ isTombstone r'.pk = false ∧
        (∀ r ∈ recs, matchLiveB key r = true → mainOf r ≤ mainOf r') ∧
        Get recs key = .found kv.v) ∧
    ((∀ r ∈ recs, matchLiveB key r = false) → Get recs key = .keyNotFound) := by
  constructor
  · rintro ⟨r0, h0, hml0, hpos⟩
    obtain ⟨rm, hm, hmlm, hmax⟩ := exists_max_main (matchLiveB key) recs r0 h0 hml0
    have h0m : (0 : Int) ≤ mainOf rm := le_trans hpos (hmax r0 h0 hml0)
    have hlt : (-1 : Int) < mainOf rm := by omega
    exact getLoop_max key recs (-1) [] rm hwf hm hmlm hlt h0m hmax
  · intro hnone
    have h := getLoop_stable key recs (-1) []
      (fun r hr hml => absurd hml (by simp [hnone r hr]))
    have h2 : Get recs key
        = if ((-1 : Int) == -1) then GetResult.keyNotFound else .found [] := h
    rw [h2]
    simp

/-- C2 witness: a key written live at main revisions 1 < 2 < 3; `Get` returns
the value written at revision 3. -/
theorem get_latest_live_value_witness :
    (∃ r' ∈ ([⟨[0, 0, 0, 0, 0, 0, 0, 1, 95, 0, 0, 0, 0, 0, 0, 0, 0], some ⟨"K", [1]⟩⟩,
              ⟨[0, 0, 0, 0, 0, 0, 0, 2, 95, 0, 0, 0, 0, 0, 0, 0, 0], some ⟨"K", [2]⟩⟩,
              ⟨[0, 0, 0, 0, 0, 0, 0, 3, 95, 0, 0, 0, 0, 0, 0, 0, 0], some ⟨"K", [3]⟩⟩] :
             Snapshot),
      ∃ kv, r'.decoded = some kv ∧ kv.k = "K" ∧ isTombstone r'.pk = false ∧
        (∀ r ∈ ([⟨[0, 0, 0, 0, 0, 0, 0, 1, 95, 0, 0, 0, 0, 0, 0, 0, 0], some ⟨"K", [1]⟩⟩,
                 ⟨[0, 0, 0, 0, 0, 0, 0, 2, 95, 0, 0, 0, 0, 0, 0, 0, 0], some ⟨"K", [2]⟩⟩,
                 ⟨[0, 0, 0, 0, 0, 0, 0, 3, 95, 0, 0, 0, 0, 0, 0, 0, 0], some ⟨"K", [3]⟩⟩] :
                Snapshot),
          matchLiveB "K" r = true → mainOf r ≤ mainOf r') ∧
        Get [⟨[0, 0, 0, 0, 0, 0, 0, 1, 95, 0, 0, 0, 0, 0, 0, 0, 0], some ⟨"K", [1]⟩⟩,
             ⟨[0, 0, 0, 0, 0, 0, 0, 2, 95, 0, 0, 0, 0, 0, 0, 0, 0], some ⟨"K", [2]⟩⟩,
             ⟨[0, 0, 0, 0, 0, 0, 0, 3, 95, 0, 0, 0, 0, 0, 0, 0, 0], some ⟨"K", [3]⟩⟩] "K"
          = .found kv.v) ∧
    Get [⟨[0, 0, 0, 0, 0, 0, 0, 1, 95, 0, 0, 0, 0, 0, 0, 0, 0], some ⟨"K", [1]⟩⟩,
         ⟨[0, 0, 0, 0, 0, 0, 0, 2, 95, 0, 0, 0, 0, 0, 0, 0, 0], some ⟨"K", [2]⟩⟩,
         ⟨[0, 0, 0, 0, 0, 0, 0, 3, 95, 0, 0, 0, 0, 0, 0, 0, 0], some ⟨"K", [3]⟩⟩] "K"
      = .found [3] :=
  ⟨(get_latest_live_value _ "K" (by decide)).1
    ⟨⟨[0, 0, 0, 0, 0, 0, 0, 1, 95, 0, 0, 0, 0, 0, 0, 0, 0], some ⟨"K", [1]⟩⟩,
      by decide, by decide, by decide⟩,
   by decide⟩

/-- C8 (amended): when the live matching records carry pairwise distinct
`main` revisions, the result of `Get` does not depend on the scan order —
any permutation of the physical records yields the same result. -/
theorem get_perm_invariant (recs recs' : Snapshot) (key : String)
    (hperm : recs.Perm recs')
    (hdist : ∀ r ∈ recs, ∀ r' ∈ recs, matchLiveB key r = true → matchLiveB key r' = true →
      mainOf r = mainOf r' → r = r') :
    Get recs key = Get recs' key := by
  by_cases hpanic : ∃ r ∈ recs, matchLiveB key r = true ∧ r.pk.length < 17
  · obtain ⟨r, hr, hml, hlen⟩ := hpanic
    have h1 : Get recs key = .panic := getLoop_panic key recs (-1) [] ⟨r, hr, hml, hlen⟩
    have h2 : Get recs' key = .panic :=
      getLoop_panic key recs' (-1) [] ⟨r, hperm.mem_iff.mp hr, hml, hlen⟩
    rw [h1, h2]
  · have hwf : ∀ r ∈ recs, matchLiveB key r = true → 17 ≤ r.pk.length := by
      intro r hr hml
      by_contra hlt
      exact hpanic ⟨r, hr, hml, by omega⟩
    have hwf' : ∀ r ∈ recs', matchLiveB key r = true → 17 ≤ r.pk.length :=
      fun r hr => hwf r (hperm.mem_iff.mpr hr)
    by_cases hex : ∃ r0 ∈ recs, matchLiveB key r0 = true ∧ 0 ≤ mainOf r0
    · obtain ⟨r0, h0, hml0, hpos⟩ := hex
      obtain ⟨rm, hm, hmlm, hmax⟩ := exists_max_main (matchLiveB key) recs r0 h0 hml0
      have h0m : (0 : Int) ≤ mainOf rm := le_trans hpos (hmax r0 h0 hml0)
      have hlt : (-1 : Int) < mainOf rm := by omega
      obtain ⟨ra, hra, kva, ha1, ha2, ha3, hamax, haeq⟩ :=
        getLoop_max key recs (-1) [] rm hwf hm hmlm hlt h0m hmax
      have hmaxp : ∀ r ∈ recs', matchLiveB key r = true → mainOf r ≤ mainOf rm :=
        fun r hr => hmax r (hperm.mem_iff.mpr hr)
      obtain ⟨rb, hrb, kvb, hb1, hb2, hb3, hbmax, hbeq⟩ :=
        getLoop_max key recs' (-1) [] rm hwf' (hperm.mem_iff.mp hm) hmlm hlt h0m hmaxp
      have hmla : matchLiveB key ra = true :=
        (matchLiveB_iff key ra).mpr ⟨kva, ha1, ha2, ha3⟩
      have hmlb : matchLiveB key rb = true :=
        (matchLiveB_iff key rb).mpr ⟨kvb, hb1, hb2, hb3⟩
      have hrb' : rb ∈ recs := hperm.mem_iff.mpr hrb
      have hle1 : mainOf ra ≤ mainOf rb := hbmax ra (hperm.mem_iff.mp hra) hmla
      have hle2 : mainOf rb ≤ mainOf ra := hamax rb hrb' hmlb
      have heqr : ra = rb := hdist ra hra rb hrb' hmla hmlb (le_antisymm hle1 hle2)
      have hkv : kva = kvb := by
        rw [heqr] at ha1
        rw [hb1] at ha1
        exact (Option.some.inj ha1).symm
      have hga : Get recs key = .found kva.v := haeq
      have hgb : Get recs' key = .found kvb.v := hbeq
      rw [hga, hgb, hkv]
    · have hall : ∀ r ∈ recs, matchLiveB key r = true →
          17 ≤ r.pk.length ∧ mainOf r ≤ -1 := by
        intro r hr hml
        refine ⟨hwf r hr hml, ?_⟩
        by_contra hgt
        exact hex ⟨r, hr, hml, by omega⟩
      have hall' : ∀ r ∈ recs', matchLiveB key r = true →
          17 ≤ r.pk.length ∧ mainOf r ≤ -1 :=
        fun r hr => hall r (hperm.mem_iff.mpr hr)
      have h1 : Get recs key
          = if ((-1 : Int) == -1) then GetResult.keyNotFound else .found [] :=
        getLoop_stable key recs (-1) [] hall
      have h2 : Get recs' key
          = if ((-1 : Int) == -1) then GetResult.keyNotFound else .found [] :=
        getLoop_stable key recs' (-1) [] hall'
      rw [h1, h2]

/-- C8 witness: two live records with distinct `main` revisions scanned in
both orders give the same result. -/
theorem get_perm_invariant_witness :
    Get [⟨[0, 0, 0, 0, 0, 0, 0, 1, 95, 0, 0, 0, 0, 0, 0, 0, 0], some ⟨"K", [1]⟩⟩,
         ⟨[0, 0, 0, 0, 0, 0, 0, 2, 95, 0, 0, 0, 0, 0, 0, 0, 0], some ⟨"K", [2]⟩⟩] "K"
      = Get [⟨[0, 0, 0, 0, 0, 0, 0, 2, 95, 0, 0, 0, 0, 0, 0, 0, 0], some ⟨"K", [2]⟩⟩,
             ⟨[0, 0, 0, 0, 0, 0, 0, 1, 95, 0, 0, 0, 0, 0, 0, 0, 0], some ⟨"K", [1]⟩⟩] "K" :=
  get_perm_invariant _ _ "K" (by decide) (by decide)

/-- Membership after a Go-map style set insertion. -/
theorem mem_insertKey (seen : List String) (k K : String) :
    K ∈ insertKey seen k ↔ K ∈ seen ∨ K = k := by
  by_cases h : k ∈ seen
  · simp only [insertKey, if_pos h]
    constructor
    · exact Or.inl
    · rintro (h' | rfl)
      · exact h'
      · exact h
  · simp [insertKey, h]

/-- A logical key matching none of the prefixes is never added nor removed by
the `ListSecrets` loop. -/
theorem listLoop_mem_nomatch (pfxs : List String) (K : String)
    (hK : (pfxs.any fun p => strHasPre K p) = false) :
    ∀ (rs : Snapshot) (seen : List String), K ∈ listLoop pfxs rs seen ↔ K ∈ seen := by
  intro rs
  induction rs with
  | nil =>
    intro seen
    simp [listLoop]
  | cons r rs ih =>
    intro seen
    rcases hdec : r.decoded with _ | kv
    · simp only [listLoop, hdec]
      exact ih seen
    · by_cases hp : (pfxs.any fun p => strHasPre kv.k p) = true
      · have hne : kv.k ≠ K := by
          rintro rfl
          rw [hp] at hK
          cases hK
        have hne' : K ≠ kv.k := fun h => hne h.symm
        by_cases hts : isTombstone r.pk = true
        · simp only [listLoop, hdec, hp, if_true, hts, Bool.not_true]
          simp only [Bool.false_eq_true, if_false]
          rw [ih]
          simp [List.mem_filter, hne']
        · have hts' : isTombstone r.pk = false := by
            simpa using hts
          simp only [listLoop, hdec, hp, if_true, hts', Bool.not_false]
          rw [ih, mem_insertKey]
          simp [hne']
      · simp only [listLoop, hdec]
        rw [if_neg hp]
        exact ih seen

/-- A logical key matching some prefix survives the `ListSecrets` loop iff
the last physical record decoding to it is live (or no record decodes to it
and it was already in the accumulator). -/
theorem listLoop_mem_match (pfxs : List String) (K : String)
    (hK : (pfxs.any fun p => strHasPre K p) = true) :
    ∀ (rs : Snapshot) (seen : List String),
      K ∈ listLoop pfxs rs seen ↔
        (((rs.filter (decodesToB K)).getLast? = none ∧ K ∈ seen) ∨
         (∃ r, (rs.filter (decodesToB K)).getLast? = some r ∧ isTombstone r.pk = false)) := by
  intro rs
  induction rs with
  | nil =>
    intro seen
    simp [listLoop]
  | cons r rs ih =>
    intro seen
    rcases hdec : r.decoded with _ | kv
    · have hdb : decodesToB K r = false := by
        simp [decodesToB, hdec]
      have hfc : List.filter (decodesToB K) (r :: rs) = List.filter (decodesToB K) rs := by
        rw [List.filter_cons_of_neg]
        simp [hdb]
      simp only [listLoop, hdec]
      rw [hfc]
      exact ih seen
    · by_cases hk : kv.k = K
      · have hdb : decodesToB K r = true := by
          simp [decodesToB, hdec, hk]
        have hpk : (pfxs.any fun p => strHasPre kv.k p) = true := by
          rw [hk]
          exact hK
        rw [List.filter_cons_of_pos hdb, List.getLast?_cons]
        by_cases hts : isTombstone r.pk = true
        · simp only [listLoop, hdec, hpk, if_true, hts, Bool.not_true]
          simp only [Bool.false_eq_true, if_false]
          rw [ih]
          have hmemf : (K ∈ seen.filter fun s => s ≠ kv.k) ↔ False := by
            simp [List.mem_filter, hk]
          rcases hl : (rs.filter (decodesToB K)).getLast? with _ | r''
          · simp [hl, hts, hk]
          · simp [hl, hk]
        · have hts' : isTombstone r.pk = false := by
            simpa using hts
          simp only [listLoop, hdec, hpk, if_true, hts', Bool.not_false]
          rw [ih]
          have hmemi : K ∈ insertKey seen kv.k := by
            rw [mem_insertKey]
            exact Or.inr hk.symm
          rcases hl : (rs.filter (decodesToB K)).getLast? with _ | r''
          · simp [hl, hmemi, hts']
          · simp [hl, hmemi]
      · have hdb : decodesToB K r = false := by
          simp [decodesToB, hdec, hk]
        have hfc : List.filter (decodesToB K) (r :: rs) = List.filter (decodesToB K) rs := by
          rw [List.filter_cons_of_neg]
          simp [hdb]
        rw [hfc]
        by_cases hp : (pfxs.any fun p => strHasPre kv.k p) = true
        · by_cases hts : isTombstone r.pk = true
          · simp only [listLoop, hdec, hp, if_true, hts, Bool.not_true]
            simp only [Bool.false_eq_true, if_false]
            rw [ih]
            have hne' : K ≠ kv.k := fun h => hk h.symm
            have hmemf : (K ∈ seen.filter fun s => s ≠ kv.k) ↔ K ∈ seen := by
              simp [List.mem_filter, hne']
            rw [hmemf]
          · have hts' : isTombstone r.pk = false := by
              simpa using hts
            simp only [listLoop, hdec, hp, if_true, hts', Bool.not_false]
            rw [ih, mem_insertKey]
            have hne' : K ≠ kv.k := fun h => hk h.symm
            have hor : (K ∈ seen ∨ K = kv.k) ↔ K ∈ seen := by
              simp [hne']
            rw [hor]
        · simp only [listLoop, hdec]
          rw [if_neg hp]
          exact ih seen

/-- C3: a logical key appears in the prefix-filtered enumeration exactly when
it matches at least one supplied prefix and the last physical record decoding
to it in scan order is not a tombstone; and the spec's concrete example is
returned exactly. -/
theorem listByPfxs_spec :
    (∀ (pfxs : List String) (recs : Snapshot) (K : String),
      K ∈ listByPfxs pfxs recs ↔
        ((pfxs.any fun p => strHasPre K p) = true ∧
          ∃ r, (recs.filter (decodesToB K)).getLast? = some r ∧
            isTombstone r.pk = false)) ∧
    listByPfxs ["/registry/secrets/"]
        [⟨[0, 0, 0, 0, 0, 0, 0, 1, 95, 0, 0, 0, 0, 0, 0, 0, 0],
          some ⟨"/registry/secrets/default/a", [97]⟩⟩,
         ⟨[0, 0, 0, 0, 0, 0, 0, 2, 95, 0, 0, 0, 0, 0, 0, 0, 0],
          some ⟨"/registry/configmaps/default/b", [98]⟩⟩,
         ⟨[0, 0, 0, 0, 0, 0, 0, 3, 95, 0, 0, 0, 0, 0, 0, 0, 0],
          some ⟨"/registry/secrets/kube-system/c", [99]⟩⟩]
      = ["/registry/secrets/default/a", "/registry/secrets/kube-system/c"] := by
  constructor
  · intro pfxs recs K
    by_cases hK : (pfxs.any fun p => strHasPre K p) = true
    · rw [listByPfxs, listLoop_mem_match pfxs K hK]
      simp [hK]
    · rw [listByPfxs, listLoop_mem_nomatch pfxs K (by simpa using hK)]
      simp [hK]
  · decide

/-- C3 witness: the characterisation applied at a concrete snapshot. -/
theorem listByPfxs_spec_witness :
    "/registry/secrets/default/a" ∈ listByPfxs ["/registry/secrets/"]
      [⟨[0, 0, 0, 0, 0, 0, 0, 1, 95, 0, 0, 0, 0, 0, 0, 0, 0],
        some ⟨"/registry/secrets/default/a", [97]⟩⟩] :=
  (listByPfxs_spec.1 _ _ _).mpr
    ⟨by decide,
     ⟨[0, 0, 0, 0, 0, 0, 0, 1, 95, 0, 0, 0, 0, 0, 0, 0, 0],
      some ⟨"/registry/secrets/default/a", [97]⟩⟩,
     by decide, by decide⟩

/-- C6: for a well-formed envelope (header present, separator found), a
decryptor bound to a non-empty key identifier that differs from the parsed
one fails with the key-identifier mismatch error whatever the cipher is; a
decryptor bound to the empty identifier never reports that error on any
input. -/
theorem decrypt_keyId_asymmetry :
    (∀ (D : List Nat → List Nat) (dk data : List Nat) (i : Nat),
      bytesHasPre envHeader data = true →
      (data.drop envHeader.length).findIdx? (fun b => b == 58) = some i →
      dk ≠ [] →
      (data.drop envHeader.length).take i ≠ dk →
      Decrypt D dk data = .error .keyIdMismatch) ∧
    (∀ (D : List Nat → List Nat) (data : List Nat),
      Decrypt D [] data ≠ .error .keyIdMismatch) := by
  constructor
  · intro D dk data i hpre hfind hdk hne
    simp only [Decrypt, hpre, not_true, if_false, hfind]
    rw [if_pos ⟨hdk, hne⟩]
  · intro D data
    by_cases hpre : bytesHasPre envHeader data = true
    · simp only [Decrypt, hpre, not_true, if_false]
      split
      · simp
      · rw [if_neg (by simp)]
        split
        · simp
        · split
          · simp
          · split <;> simp
    · simp only [Decrypt]
      rw [if_pos hpre]
      split <;> simp

/-- C6 witness: an envelope naming key id `"B"` against a decryptor bound to
`"A"` (65 vs 66), and the same envelope against an unbound decryptor. -/
theorem decrypt_keyId_asymmetry_witness :
    Decrypt id [65] (mkEnvelope [66] (List.replicate 16 0))
        = Except.error DecErr.keyIdMismatch ∧
    Decrypt id [] (mkEnvelope [66] (List.replicate 16 0))
        ≠ Except.error DecErr.keyIdMismatch :=
  ⟨decrypt_keyId_asymmetry.1 id [65] (mkEnvelope [66] (List.replicate 16 0)) 1
    (by decide) (by decide) (by decide) (by decide),
   decrypt_keyId_asymmetry.2 id (mkEnvelope [66] (List.replicate 16 0))⟩

/-- XOR-ing twice with the same equal-length mask is the identity, the heart
of the CBC chaining round trip. -/
theorem xorBytes_cancel (a : List Nat) :
    ∀ b : List Nat, a.length = b.length → xorBytes (xorBytes a b) b = a := by
  induction a with
  | nil =>
    intro b _
    simp [xorBytes]
  | cons x a ih =>
    intro b h
    cases b with
    | nil => simp at h
    | cons y b =>
      have ht := ih b (by simpa using h)
      have hh : Nat.xor (Nat.xor x y) y = x := Nat.xor_cancel_right y x
      simp only [xorBytes] at ht ⊢
      simp [hh, ht]

/-- CBC encryption of `n` whole blocks yields `n` whole blocks. -/
theorem cbcEncBlocks_length (E : List Nat → List Nat)
    (hE : ∀ b : List Nat, b.length = 16 → (E b).length = 16) :
    ∀ (n : Nat) (prev pt : List Nat), prev.length = 16 → pt.length = 16 * n →
      (cbcEncBlocks E n prev pt).length = 16 * n := by
  intro n
  induction n with
  | zero =>
    intro prev pt _ _
    simp [cbcEncBlocks]
  | succ n ih =>
    intro prev pt hprev hpt
    have h16 : (pt.take 16).length = 16 := by
      rw [List.length_take]
      omega
    have hx : (xorBytes (pt.take 16) prev).length = 16 := by
      simp [xorBytes, List.length_zipWith, h16, hprev]
    have hc : (E (xorBytes (pt.take 16) prev)).length = 16 := hE _ hx
    have hd : (pt.drop 16).length = 16 * n := by
      rw [List.length_drop]
      omega
    simp only [cbcEncBlocks, List.length_append, hc, ih _ _ hc hd]
    ring

/-- CBC decryption inverts CBC encryption block by block, given that the
block cipher's decryption inverts its encryption on 16-byte blocks. -/
theorem cbc_roundtrip (E D : List Nat → List Nat)
    (hE : ∀ b : List Nat, b.length = 16 → (E b).length = 16)
    (hD : ∀ b : List Nat, b.length = 16 → D (E b) = b) :
    ∀ (n : Nat) (prev pt : List Nat), prev.length = 16 → pt.length = 16 * n →
      cbcDecBlocks D n prev (cbcEncBlocks E n prev pt) = pt := by
  intro n
  induction n with
  | zero =>
    intro prev pt _ hpt
    have hnil : pt = [] := List.length_eq_zero.mp (by omega)
    subst hnil
    rfl
  | succ n ih =>
    intro prev pt hprev hpt
    have h16 : (pt.take 16).length = 16 := by
      rw [List.length_take]
      omega
    have hxlen : (xorBytes (pt.take 16) prev).length = 16 := by
      simp [xorBytes, List.length_zipWith, h16, hprev]
    have hclen : (E (xorBytes (pt.take 16) prev)).length = 16 := hE _ hxlen
    have hd : (pt.drop 16).length = 16 * n := by
      rw [List.length_drop]
      omega
    simp only [cbcEncBlocks, cbcDecBlocks]
    have htake : (E (xorBytes (pt.take 16) prev) ++
        cbcEncBlocks E n (E (xorBytes (pt.take 16) prev)) (pt.drop 16)).take 16
        = E (xorBytes (pt.take 16) prev) := List.take_left' hclen
    have hdrop : (E (xorBytes (pt.take 16) prev) ++
        cbcEncBlocks E n (E (xorBytes (pt.take 16) prev)) (pt.drop 16)).drop 16
        = cbcEncBlocks E n (E (xorBytes (pt.take 16) prev)) (pt.drop 16) :=
      List.drop_left' hclen
    rw [htake, hdrop, hD _ hxlen,
      xorBytes_cancel _ _ (by rw [h16, hprev]), ih _ _ hclen hd,
      List.take_append_drop]

/-- Removing PKCS#7 padding from a buffer that ends in `m` copies of `m`
(with `1 ≤ m ≤ 16`) strips exactly those `m` bytes. -/
theorem removePad_append_replicate (q : List Nat) (m : Nat)
    (h1 : 1 ≤ m) (h16 : m ≤ 16) :
    removePKCS7Padding (q ++ List.replicate m m) 16 = .ok q := by
  obtain ⟨k, hk⟩ : ∃ k, m = k + 1 := ⟨m - 1, by omega⟩
  have hlast : (q ++ List.replicate m m).getLastD 0 = m := by
    rw [List.getLastD_eq_getLast?]
    rw [show q ++ List.replicate m m = (q ++ List.replicate k m) ++ [m] from by
      rw [hk, List.replicate_succ', ← List.append_assoc]]
    rw [List.getLast?_concat]
    rfl
  have hlen : (q ++ List.replicate m m).length = q.length + m := by
    simp
  have hfind : ∀ (n i : Nat),
      List.findIdx? (fun b => b != m) (List.replicate n m) i = none := by
    intro n
    induction n with
    | zero =>
      intro i
      rfl
    | succ n ih =>
      intro i
      rw [List.replicate_succ, List.findIdx?_cons]
      simp only [bne_self_eq_false, Bool.false_eq_true, if_false]
      exact ih (i + 1)
  unfold removePKCS7Padding
  rw [hlast, hlen]
  rw [if_neg (by omega), if_neg (by omega), if_neg (by omega)]
  rw [show q.length + m - m = q.length from by omega]
  rw [List.drop_left, hfind m 0, List.take_left]

/-- The padded plaintext is a positive whole number of 16-byte blocks. -/
theorem pkcs7Pad_length (p : List Nat) :
    (pkcs7Pad p).length = 16 * (p.length / 16 + 1) := by
  simp only [pkcs7Pad, List.length_append, List.length_replicate]
  have h1 : 16 * (p.length / 16) + p.length % 16 = p.length := Nat.div_add_mod p.length 16
  have h2 : p.length % 16 < 16 := Nat.mod_lt _ (by norm_num)
  omega

/-- Unpadding inverts the test helper's padding. -/
theorem removePad_pkcs7Pad (p : List Nat) :
    removePKCS7Padding (pkcs7Pad p) 16 = .ok p := by
  have h2 : p.length % 16 < 16 := Nat.mod_lt _ (by norm_num)
  exact removePad_append_replicate p (16 - p.length % 16) (by omega) (by omega)

/-- C4: the round trip of the repository's own test pipeline — PKCS#7-pad a
plaintext of one of the spec's lengths, CBC-encrypt it under an abstract
16-byte block cipher seeded with a 16-byte IV, wrap the result in the fixed
envelope with key id `"key1"`, then decrypt with a decryptor bound to the
same cipher and `"key1"` — returns exactly the original plaintext with no
error. -/
theorem decrypt_roundtrip (E D : List Nat → List Nat) (p iv : List Nat)
    (hE : ∀ b : List Nat, b.length = 16 → (E b).length = 16)
    (hD : ∀ b : List Nat, b.length = 16 → D (E b) = b)
    (hiv : iv.length = 16)
    (_hlens : p.length ∈ [0, 1, 15, 16, 17, 32, 33]) :
    Decrypt D key1Bytes (mkEnvelope key1Bytes (encryptTestData E iv p)) = .ok p := by
  obtain ⟨ct, hct⟩ : ∃ ct, cbcEncBlocks E ((pkcs7Pad p).length / 16) iv (pkcs7Pad p) = ct :=
    ⟨_, rfl⟩
  have hpadlen : (pkcs7Pad p).length = 16 * (p.length / 16 + 1) := pkcs7Pad_length p
  have hn : (pkcs7Pad p).length / 16 = p.length / 16 + 1 := by
    rw [hpadlen]
    exact Nat.mul_div_cancel_left _ (by norm_num)
  have hctlen : ct.length = 16 * (p.length / 16 + 1) := by
    rw [← hct, hn]
    exact cbcEncBlocks_length E hE _ iv (pkcs7Pad p) hiv (by rw [hpadlen])
  have henv : mkEnvelope key1Bytes (encryptTestData E iv p)
      = envHeader ++ (key1Bytes ++ 58 :: (iv ++ ct)) := by
    unfold mkEnvelope encryptTestData
    rw [hct, List.append_assoc]
  rw [henv]
  have hpre : bytesHasPre envHeader (envHeader ++ (key1Bytes ++ 58 :: (iv ++ ct))) = true := by
    unfold bytesHasPre
    rw [List.take_left]
    simp
  have hrest : (envHeader ++ (key1Bytes ++ 58 :: (iv ++ ct))).drop envHeader.length
      = key1Bytes ++ 58 :: (iv ++ ct) := List.drop_left _ _
  have hfind : (key1Bytes ++ 58 :: (iv ++ ct)).findIdx? (fun b => b == 58) = some 4 := rfl
  have htk : (key1Bytes ++ 58 :: (iv ++ ct)).take 4 = key1Bytes := rfl
  have hpay : (key1Bytes ++ 58 :: (iv ++ ct)).drop (4 + 1) = iv ++ ct := rfl
  have hpaylen : (iv ++ ct).length = 16 * (p.length / 16 + 2) := by
    rw [List.length_append, hiv, hctlen]
    ring
  simp only [Decrypt]
  rw [if_neg (by simp [hpre])]
  rw [hrest]
  simp only [hfind]
  rw [if_neg (fun hcon => hcon.2 htk)]
  rw [hpay]
  rw [if_neg (by rw [hpaylen]; omega)]
  rw [if_neg (by rw [hpaylen]; omega)]
  rw [List.take_left' hiv, List.drop_left' hiv]
  have hdec : cbcDecrypt D iv ct = pkcs7Pad p := by
    unfold cbcDecrypt
    have hq : ct.length / 16 = p.length / 16 + 1 := by
      rw [hctlen]
      exact Nat.mul_div_cancel_left _ (by norm_num)
    rw [hq, ← hct, hn]
    exact cbc_roundtrip E D hE hD (p.length / 16 + 1) iv (pkcs7Pad p) hiv
      (by rw [hpadlen])
  rw [hdec, removePad_pkcs7Pad p]

/-- C4 witness: the identity block cipher (which trivially satisfies the
block-cipher contract), a zero IV and the empty plaintext. -/
theorem decrypt_roundtrip_witness :
    Decrypt id key1Bytes (mkEnvelope key1Bytes
      (encryptTestData id (List.replicate 16 0) [])) = Except.ok [] :=
  decrypt_roundtrip id id [] (List.replicate 16 0)
    (fun _ h => h) (fun _ _ => rfl) (by decide) (by decide)
